import Mathlib

/-!
Verification development for the `binvox-rw-py` voxel codec (`binvox_rw.py`).

The Python module is shallowly embedded here:

* a dense numpy 3-D boolean array becomes `Dense3` (shape plus a row-major
  flat buffer of booleans);
* a sparse (coordinate) array becomes a list of coordinate triples;
* a binvox byte stream becomes `BinvoxFile`: the four parsed header fields
  (the textual header reader/writer is direct field-by-field glue) together
  with the raw post-header payload bytes;
* functions that can raise (`IndexError`, `ValueError`, `TypeError`) return
  `Except PyErr`; a raise before any output means the error result carries
  no partial output, mirroring the exception discarding all work.

All definitions are executable and follow the Python source line by line.
-/

/-- Axis-order tag of a model: `xzy` is the binvox native order, `xyz` the
conventional order produced by `fix_coords`. -/
inductive AxisOrder where
  | xzy : AxisOrder
  | xyz : AxisOrder
deriving DecidableEq

/-- Product of the components of a dims/shape triple (`np.prod(dims)`). -/
def prodT (s : Nat × Nat × Nat) : Nat := s.1 * s.2.1 * s.2.2

/-- A dense three-dimensional boolean numpy array: its shape and the
C-contiguous (row-major) flat buffer. -/
structure Dense3 where
  shape : Nat × Nat × Nat
  flat : List Bool
deriving DecidableEq

/-- Element access `arr[i][j][k]` of a row-major 3-D array. -/
def Dense3.cell (d : Dense3) (i j k : Nat) : Bool :=
  d.flat.getD ((i * d.shape.2.1 + j) * d.shape.2.2 + k) false

/-- Decompose a row-major flat index of an array of shape `s` into its
coordinate triple. -/
def decompT (s : Nat × Nat × Nat) (n : Nat) : Nat × Nat × Nat :=
  (n / (s.2.1 * s.2.2), n / s.2.2 % s.2.1, n % s.2.2)

/-- Build the row-major 3-D array of shape `s` whose `(i,j,k)` entry is
`f i j k`. -/
def ofFun (s : Nat × Nat × Nat) (f : Nat → Nat → Nat → Bool) : Dense3 :=
  ⟨s, (List.range (prodT s)).map
    (fun n => f (decompT s n).1 (decompT s n).2.1 (decompT s n).2.2)⟩

/-- `np.ascontiguousarray(np.transpose(d, (0, 2, 1)))`: swap axes 1 and 2 and
materialise the result, so `result[i][j][k] = d[i][k][j]`. -/
def transpose021 (d : Dense3) : Dense3 :=
  ofFun (d.shape.1, d.shape.2.2, d.shape.2.1) (fun i j k => d.cell i k j)

/-- The two payload variants of `Voxels.data`: a dense 3-D boolean array or a
3×N coordinate array (held column-wise as a list of triples; `read_coords`,
the only producer of sparse models, yields nonnegative integer coordinates). -/
inductive VoxData where
  | dense : Dense3 → VoxData
  | sparse : List (Nat × Nat × Nat) → VoxData
deriving DecidableEq

/-- The `Voxels` model class: data plus metadata.  `translate` entries and
`scale` are numeric header fields that the codec only carries through; they
are modelled as rationals. -/
structure Voxels where
  data : VoxData
  dims : Nat × Nat × Nat
  translate : Rat × Rat × Rat
  scale : Rat
  axis_order : AxisOrder
deriving DecidableEq

/-- Python-level failures of the embedded operations. -/
inductive PyErr where
  /-- `IndexError`: an out-of-range index, e.g. `raw_data[i+1]` past the end
  of the payload, or `voxels_flat[0]` on an empty array. -/
  | indexOutOfRange : PyErr
  /-- `ValueError('Sparse model write not yet implemented.')`, the
  unsupported-operation failure of `write` on a sparse model. -/
  | unsupportedOperation : PyErr
  /-- `TypeError`: calling `Voxels.__init__` with a missing argument. -/
  | typeError : PyErr
deriving DecidableEq

/-- A binvox byte stream: the four header fields (magic/dim/translate/scale
lines, parsed by the trivial line-by-line header codec) and the raw payload
bytes that follow the `data` marker line. -/
structure BinvoxFile where
  dims : Nat × Nat × Nat
  translate : Rat × Rat × Rat
  scale : Rat
  payload : List Nat
deriving DecidableEq

/-- The run-length encoding loop of `write`: state machine over the flattened
data with current run value `state` and counter `ctr`, flushing a pair when
the value switches or when `ctr` hits 255, and flushing a final nonzero
remainder.  The Python loop starts with `state = voxels_flat[0]` and `ctr = 0`
and then iterates over the whole array. -/
def rleLoop : Bool → Nat → List Bool → List (Bool × Nat)
  | state, ctr, [] => if 0 < ctr then [(state, ctr)] else []
  | state, ctr, c :: rest =>
    if c = state then
      if ctr + 1 = 255 then (state, 255) :: rleLoop state 0 rest
      else rleLoop state (ctr + 1) rest
    else
      (state, ctr) :: rleLoop c 1 rest

/-- Serialise run-length pairs to payload bytes: `fp.write(chr(state))`
followed by `fp.write(chr(ctr))` for each flushed pair. -/
def pairsToBytes : List (Bool × Nat) → List Nat
  | [] => []
  | (v, c) :: ps => (if v then 1 else 0) :: c :: pairsToBytes ps

/-- The pair-scanning loop of `read`/`read_coords`: `while i < len(raw_data)`
read `raw_data[i]` and `raw_data[i+1]`; the second access is unguarded, so a
stream with a dangling final byte raises `IndexError`. -/
def bytesToPairs : List Nat → Except PyErr (List (Nat × Nat))
  | [] => .ok []
  | [_] => .error .indexOutOfRange
  | v :: c :: rest =>
    match bytesToPairs rest with
    | .ok ps => .ok ((v, c) :: ps)
    | .error e => .error e

/-- The linear occupancy sequence denoted by a pair list: each `(value,
count)` pair contributes `count` cells holding the truth value of `value`. -/
def decodeConcatN : List (Nat × Nat) → List Bool
  | [] => []
  | (v, c) :: ps => List.replicate c (decide (v ≠ 0)) ++ decodeConcatN ps

/-- The linear occupancy sequence of boolean run-length pairs. -/
def runsToSeq : List (Bool × Nat) → List Bool
  | [] => []
  | (v, c) :: ps => List.replicate c v ++ runsToSeq ps

/-- Total of the count bytes of a pair list. -/
def sumCountsN (ps : List (Nat × Nat)) : Nat := (ps.map Prod.snd).sum

/-- The count bytes (every second byte) of a payload. -/
def countBytes : List Nat → List Nat
  | _ :: c :: rest => c :: countBytes rest
  | _ => []

/-- Numpy slice assignment `buf[start:start+cnt] = v` on a 1-D boolean array:
positions past the end of the buffer are silently clipped. -/
def setRange (buf : List Bool) (start cnt : Nat) (v : Bool) : List Bool :=
  buf.take start ++ List.replicate (min cnt (buf.length - start)) v ++
    buf.drop (start + cnt)

/-- The fill loop of `read`: starting from the `np.empty(sz)` buffer, write
each run into `data[index:index+count]` and advance the cursor. -/
def rleFill : List (Nat × Nat) → List Bool → Nat → List Bool
  | [], buf, _ => buf
  | (v, c) :: ps, buf, index => rleFill ps (setRange buf index c (decide (v ≠ 0))) (index + c)

/-- The nonzero-index collection loop of `read_coords`: for each pair whose
value is nonzero, extend `nz_voxels` with `range(index, index+count)`. -/
def nzLoop : List (Nat × Nat) → Nat → List Nat
  | [], _ => []
  | (v, c) :: ps, index =>
    (if v ≠ 0 then (List.range c).map (fun t => index + t) else []) ++
      nzLoop ps (index + c)

/-- The `fix_coords` flag that reproduces a given tag on the read path. -/
def fixFor : AxisOrder → Bool
  | .xzy => false
  | .xyz => true

/-- The `voxels_flat` array of `write`: the data flattened directly under the
`xzy` tag, or flattened after `np.transpose(data, (0, 2, 1))` under `xyz`. -/
def flatFor (ax : AxisOrder) (d : Dense3) : List Bool :=
  match ax with
  | .xzy => d.flat
  | .xyz => (transpose021 d).flat

/-- `write(voxel_model, fp)`: reject sparse data (`ValueError`, raised before
any byte is written), emit the header fields, flatten the dense data (for the
`xyz` tag first transposing axes 1 and 2 back to native order), then
run-length encode starting from `state = voxels_flat[0]` — which raises
`IndexError` when the flattened array is empty. -/
def writeModel (m : Voxels) : Except PyErr BinvoxFile :=
  match m.data with
  | .sparse _ => .error .unsupportedOperation
  | .dense d =>
    match flatFor m.axis_order d with
    | [] => .error .indexOutOfRange
    | c :: rest => .ok ⟨m.dims, m.translate, m.scale,
        pairsToBytes (rleLoop c 0 (c :: rest))⟩

/-- `read(fp, fix_coords)`: parse the header, scan the payload into pairs,
fill a length-`prod(dims)` buffer (`np.empty` is modelled as a `false`-filled
buffer; every claim relying on cell values fully overwrites it), reshape to
`dims`, and transpose axes 1 and 2 when `fix_coords` is set. -/
def readModel (f : BinvoxFile) (fix : Bool) : Except PyErr Voxels :=
  match bytesToPairs f.payload with
  | .error e => .error e
  | .ok ps =>
    let sz := prodT f.dims
    let filled := rleFill ps (List.replicate sz false) 0
    let arr : Dense3 := ⟨f.dims, filled⟩
    .ok ⟨.dense (if fix then transpose021 arr else arr), f.dims, f.translate,
      f.scale, if fix then .xyz else .xzy⟩

/-- `read_coords(fp, fix_coords)`: scan the payload into pairs, collect the
nonzero linear indices, and map each index `idx` to coordinates
`x = idx / (dims[0]*dims[1])`, `z = (idx % (dims[0]*dims[1])) / dims[0]`,
`y = idx % dims[0]`, stacked as `(x, y, z)` when `fix_coords` else
`(x, z, y)`. -/
def readCoordsModel (f : BinvoxFile) (fix : Bool) : Except PyErr Voxels :=
  match bytesToPairs f.payload with
  | .error e => .error e
  | .ok ps =>
    let nz := nzLoop ps 0
    let cs := nz.map (fun idx =>
      let x := idx / (f.dims.1 * f.dims.2.1)
      let zwpy := idx % (f.dims.1 * f.dims.2.1)
      let z := zwpy / f.dims.1
      let y := zwpy % f.dims.1
      if fix then (x, y, z) else (x, z, y))
    .ok ⟨.sparse cs, f.dims, f.translate, f.scale, if fix then .xyz else .xzy⟩

/-- The dense-array shape a model's tag promises for its dims: the read path
stores shape `dims` under the `xzy` tag and shape `(dx, dz, dy)` under `xyz`. -/
def expectedShape (ax : AxisOrder) (dims : Nat × Nat × Nat) : Nat × Nat × Nat :=
  match ax with
  | .xzy => dims
  | .xyz => (dims.1, dims.2.2, dims.2.1)

/-- A dense model is well formed when its buffer length matches its shape and
its shape matches its dims as laid out by the read path for its tag. -/
def wellFormed (m : Voxels) : Bool :=
  match m.data with
  | .dense d =>
    decide (d.flat.length = prodT d.shape) &&
      decide (d.shape = expectedShape m.axis_order m.dims)
  | .sparse _ => false

/-- Observation helper: the coordinate list of a successfully read sparse
model (empty list on any other outcome). -/
def sparseResult (f : BinvoxFile) (fix : Bool) : List (Nat × Nat × Nat) :=
  match readCoordsModel f fix with
  | .ok ⟨.sparse cs, _, _, _, _⟩ => cs
  | _ => []

/-- Observation helper: the dense array of a successfully read dense model
(a degenerate empty array on any other outcome). -/
def denseResult (f : BinvoxFile) (fix : Bool) : Dense3 :=
  match readModel f fix with
  | .ok ⟨.dense d, _, _, _, _⟩ => d
  | _ => ⟨(0, 0, 0), []⟩

/-- All coordinate triples of a shape in row-major (`np.nonzero`) order. -/
def allTriples (s : Nat × Nat × Nat) : List (Nat × Nat × Nat) :=
  (List.range (prodT s)).map (decompT s)

/-- The coordinates of the true cells of a dense array, in row-major order. -/
def denseTrueCoords (d : Dense3) : List (Nat × Nat × Nat) :=
  (allTriples d.shape).filter (fun t => d.cell t.1 t.2.1 t.2.2)

/-- `dense_to_sparse(voxel_data, dtype=np.int)`: `np.nonzero` lists the
coordinates of the true cells in row-major order, converted to the integer
dtype; the 3×N result is held column-wise. -/
def dense_to_sparse (d : Dense3) : List (Int × Int × Int) :=
  (denseTrueCoords d).map (fun t => ((t.1 : Int), (t.2.1 : Int), (t.2.2 : Int)))

/-- `sparse_to_dense(voxel_data, dims, dtype=np.bool)`: coordinates are
truncated to integers (the input is modelled after that `astype(np.int)`
step), out-of-range columns are discarded, and a zero-initialised dense array
of shape `dims` is set to `True` at every remaining coordinate — so a cell is
true exactly when its coordinate triple occurs in the input list. -/
def sparse_to_dense (l : List (Int × Int × Int)) (dims : Nat × Nat × Nat) : Dense3 :=
  ofFun dims (fun i j k => decide (((i : Int), (j : Int), (k : Int)) ∈ l))

/-- A 4×4 transform matrix, row by row. -/
structure Mat4 where
  r0 : Rat × Rat × Rat × Rat
  r1 : Rat × Rat × Rat × Rat
  r2 : Rat × Rat × Rat × Rat
  r3 : Rat × Rat × Rat × Rat
deriving DecidableEq

/-- Dot product of a matrix row with the homogeneous lift `(x, y, z, 1)` of a
coordinate column. -/
def dot4 (r : Rat × Rat × Rat × Rat) (p : Rat × Rat × Rat) : Rat :=
  r.1 * p.1 + r.2.1 * p.2.1 + r.2.2.1 * p.2.2 + r.2.2.2

/-- One column of `np.dot(T, xyzw_a)` followed by the homogeneous divide
`xyzw_b /= xyzw_b[3]` and the drop of the fourth row. -/
def applyT (T : Mat4) (p : Rat × Rat × Rat) : Rat × Rat × Rat :=
  let w := dot4 T.r3 p
  (dot4 T.r0 p / w, dot4 T.r1 p / w, dot4 T.r2 p / w)

/-- Truncation toward zero, `astype(np.int)` on one entry. -/
def truncQ (q : Rat) : Int := if 0 ≤ q then q.floor else -((-q).floor)

/-- `astype(np.int)` on a coordinate column, kept in the ambient numeric type. -/
def truncTriple (p : Rat × Rat × Rat) : Rat × Rat × Rat :=
  ((truncQ p.1 : Rat), (truncQ p.2.1 : Rat), (truncQ p.2.2 : Rat))

/-- The per-column validity test of the clipping step:
`~np.any((xyz_b < 0) | (xyz_b >= clip_dim), 0)`. -/
def clipKeep (d : Int) (p : Rat × Rat × Rat) : Bool :=
  !(decide (p.1 < 0) || decide ((d : Rat) ≤ p.1) ||
    decide (p.2.1 < 0) || decide ((d : Rat) ≤ p.2.1) ||
    decide (p.2.2 < 0) || decide ((d : Rat) ≤ p.2.2))

/-- `transform_voxels_coords(ijk, T, trunc, clip_dim)`: lift each column to
homogeneous form, multiply by `T`, divide by the homogeneous component, drop
it, optionally truncate to integers, and — when `clip_dim` is a positive
integer — keep only the columns whose coordinates all lie in `[0, clip_dim)`. -/
def transform_voxels_coords (ijk : List (Rat × Rat × Rat)) (T : Mat4)
    (trunc : Bool) (clip_dim : Option Int) : List (Rat × Rat × Rat) :=
  let ts := ijk.map (applyT T)
  let ts := if trunc then ts.map truncTriple else ts
  match clip_dim with
  | none => ts
  | some d => if 0 < d then ts.filter (clipKeep d) else ts

/-- The identity 4×4 matrix. -/
def idMat4 : Mat4 :=
  ⟨(1, 0, 0, 0), (0, 1, 0, 0), (0, 0, 1, 0), (0, 0, 0, 1)⟩

/-- `Voxels.clone`: copies `data`, `dims[:]`, `translate[:]` and `scale`, then
evaluates `Voxels(data, dims, translate, scale)` — four arguments for the
five-parameter `__init__` (the `axis_order` argument is missing), so the call
raises `TypeError` before any model is produced. -/
def clone (m : Voxels) : Except PyErr Voxels :=
  let _data := m.data
  let _dims := m.dims
  let _translate := m.translate
  let _scale := m.scale
  .error .typeError

/-! ### Row-major index arithmetic -/

theorem jck_lt {j k b c : Nat} (hj : j < b) (hk : k < c) : j * c + k < b * c := by
  calc j * c + k < j * c + c := by omega
    _ = (j + 1) * c := by ring
    _ ≤ b * c := Nat.mul_le_mul_right c hj

theorem recon_lt {i j k a b c : Nat} (hi : i < a) (hj : j < b) (hk : k < c) :
    (i * b + j) * c + k < a * b * c := by
  calc (i * b + j) * c + k < (i * b + j) * c + c := by omega
    _ = (i * b + j + 1) * c := by ring
    _ ≤ (a * b) * c := by
        refine Nat.mul_le_mul_right c ?_
        have h1 : (i + 1) * b ≤ a * b := Nat.mul_le_mul_right b hi
        have h2 : i * b + j + 1 ≤ i * b + b := by omega
        have h3 : i * b + b = (i + 1) * b := by ring
        omega
    _ = a * b * c := by ring

theorem decomp1_eq {i j k b c : Nat} (hj : j < b) (hk : k < c) :
    ((i * b + j) * c + k) / (b * c) = i := by
  have hbc : 0 < b * c := Nat.mul_pos (by omega) (by omega)
  have h1 : (i * b + j) * c + k = (b * c) * i + (j * c + k) := by ring
  rw [h1, Nat.mul_add_div hbc, Nat.div_eq_of_lt (jck_lt hj hk)]
  rfl

theorem decomp2_eq {i j k b c : Nat} (hj : j < b) (hk : k < c) :
    ((i * b + j) * c + k) / c % b = j := by
  have hc : 0 < c := by omega
  have h1 : (i * b + j) * c + k = c * (i * b + j) + k := by ring
  rw [h1, Nat.mul_add_div hc, Nat.div_eq_of_lt hk, Nat.add_zero,
    mul_comm i b, Nat.mul_add_mod, Nat.mod_eq_of_lt hj]

theorem decomp3_eq {i j k b c : Nat} (hk : k < c) :
    ((i * b + j) * c + k) % c = k := by
  rw [mul_comm (i * b + j) c, Nat.mul_add_mod, Nat.mod_eq_of_lt hk]

theorem decompT_recon {s : Nat × Nat × Nat} {i j k : Nat}
    (_hi : i < s.1) (hj : j < s.2.1) (hk : k < s.2.2) :
    decompT s ((i * s.2.1 + j) * s.2.2 + k) = (i, j, k) := by
  simp only [decompT, decomp1_eq hj hk, decomp2_eq hj hk, decomp3_eq hk]

theorem decompT_lt {s : Nat × Nat × Nat} {n : Nat} (hn : n < prodT s) :
    (decompT s n).1 < s.1 ∧ (decompT s n).2.1 < s.2.1 ∧ (decompT s n).2.2 < s.2.2 := by
  obtain ⟨a, b, c⟩ := s
  simp only [prodT] at hn
  have habc : 0 < a * b * c := Nat.zero_lt_of_lt hn
  have hb : 0 < b := by
    rcases Nat.eq_zero_or_pos b with h | h
    · subst h; simp at habc
    · exact h
  have hc : 0 < c := by
    rcases Nat.eq_zero_or_pos c with h | h
    · subst h; simp at habc
    · exact h
  refine ⟨?_, Nat.mod_lt _ hb, Nat.mod_lt _ hc⟩
  simp only [decompT]
  rw [Nat.div_lt_iff_lt_mul (Nat.mul_pos hb hc)]
  calc n < a * b * c := hn
    _ = a * (b * c) := by ring

theorem recon_decompT {s : Nat × Nat × Nat} {n : Nat} (hn : n < prodT s) :
    ((decompT s n).1 * s.2.1 + (decompT s n).2.1) * s.2.2 + (decompT s n).2.2 = n := by
  obtain ⟨a, b, c⟩ := s
  simp only [prodT] at hn
  simp only [decompT]
  have hkey : n % (b * c) = n / c % b * c + n % c := by
    rw [mul_comm b c, Nat.mod_mul]; ring
  calc (n / (b * c) * b + n / c % b) * c + n % c
      = (b * c) * (n / (b * c)) + (n / c % b * c + n % c) := by ring
    _ = (b * c) * (n / (b * c)) + n % (b * c) := by rw [hkey]
    _ = n := Nat.div_add_mod n (b * c)

/-! ### Dense-array (`ofFun` / `transpose021`) lemmas -/

theorem getD_map_range {α : Type} (f : Nat → α) (d : α) (n m : Nat) :
    (((List.range n).map f).getD m d) = if m < n then f m else d := by
  by_cases h : m < n
  · rw [List.getD_eq_getElem _ _ (by simpa using h)]
    simp [h]
  · rw [List.getD_eq_default _ _ (by simpa using Nat.le_of_not_lt h)]
    simp [h]

theorem ofFun_shape (s : Nat × Nat × Nat) (f : Nat → Nat → Nat → Bool) :
    (ofFun s f).shape = s := rfl

theorem ofFun_flat_length (s : Nat × Nat × Nat) (f : Nat → Nat → Nat → Bool) :
    (ofFun s f).flat.length = prodT s := by
  simp [ofFun]

theorem cell_ofFun {s : Nat × Nat × Nat} (f : Nat → Nat → Nat → Bool)
    {i j k : Nat} (hi : i < s.1) (hj : j < s.2.1) (hk : k < s.2.2) :
    (ofFun s f).cell i j k = f i j k := by
  obtain ⟨a, b, c⟩ := s
  simp only [Dense3.cell, ofFun]
  rw [getD_map_range]
  have hlt : (i * b + j) * c + k < prodT (a, b, c) := recon_lt hi hj hk
  rw [if_pos hlt]
  have hd := decompT_recon (s := (a, b, c)) hi hj hk
  simp only [hd]

theorem ofFun_congr {s : Nat × Nat × Nat} {f g : Nat → Nat → Nat → Bool}
    (h : ∀ i j k, i < s.1 → j < s.2.1 → k < s.2.2 → f i j k = g i j k) :
    ofFun s f = ofFun s g := by
  simp only [ofFun, Dense3.mk.injEq, true_and]
  refine List.map_congr_left (fun n hn => ?_)
  rw [List.mem_range] at hn
  obtain ⟨h1, h2, h3⟩ := decompT_lt hn
  exact h _ _ _ h1 h2 h3

theorem ofFun_cell_self (d : Dense3) (h : d.flat.length = prodT d.shape) :
    ofFun d.shape d.cell = d := by
  obtain ⟨s, flat⟩ := d
  simp only [ofFun, Dense3.mk.injEq, true_and]
  refine List.ext_getElem (by simpa using h.symm) (fun n h1 h2 => ?_)
  have hn : n < prodT s := by simpa using h1
  rw [List.getElem_map, List.getElem_range]
  simp only [Dense3.cell]
  rw [recon_decompT hn, List.getD_eq_getElem _ _ (by omega)]

theorem transpose021_shape (d : Dense3) :
    (transpose021 d).shape = (d.shape.1, d.shape.2.2, d.shape.2.1) := rfl

theorem transpose021_involution (d : Dense3) (h : d.flat.length = prodT d.shape) :
    transpose021 (transpose021 d) = d := by
  obtain ⟨⟨a, b, c⟩, flat⟩ := d
  show ofFun (a, b, c) _ = _
  have hcells : ∀ i j k, i < a → j < b → k < c →
      (transpose021 ⟨(a, b, c), flat⟩).cell i k j =
        Dense3.cell ⟨(a, b, c), flat⟩ i j k := by
    intro i j k hi hj hk
    exact cell_ofFun (s := (a, c, b)) _ hi hk hj
  calc ofFun (a, b, c) (fun i j k => (transpose021 ⟨(a, b, c), flat⟩).cell i k j)
      = ofFun (a, b, c) (Dense3.cell ⟨(a, b, c), flat⟩) :=
        ofFun_congr (fun i j k hi hj hk => hcells i j k hi hj hk)
    _ = ⟨(a, b, c), flat⟩ := ofFun_cell_self _ h

/-! ### Coordinate-enumeration lemmas -/

theorem mem_allTriples {s : Nat × Nat × Nat} {t : Nat × Nat × Nat} :
    t ∈ allTriples s ↔ t.1 < s.1 ∧ t.2.1 < s.2.1 ∧ t.2.2 < s.2.2 := by
  simp only [allTriples, List.mem_map, List.mem_range]
  constructor
  · rintro ⟨n, hn, rfl⟩
    exact decompT_lt hn
  · rintro ⟨h1, h2, h3⟩
    obtain ⟨i, j, k⟩ := t
    exact ⟨(i * s.2.1 + j) * s.2.2 + k, recon_lt h1 h2 h3, decompT_recon h1 h2 h3⟩

theorem mem_denseTrueCoords {d : Dense3} {t : Nat × Nat × Nat} :
    t ∈ denseTrueCoords d ↔
      t.1 < d.shape.1 ∧ t.2.1 < d.shape.2.1 ∧ t.2.2 < d.shape.2.2 ∧
        d.cell t.1 t.2.1 t.2.2 = true := by
  simp only [denseTrueCoords, List.mem_filter, mem_allTriples]
  tauto

theorem mem_denseTrueCoords_flat {d : Dense3} {t : Nat × Nat × Nat} :
    t ∈ denseTrueCoords d ↔
      ∃ n, n < prodT d.shape ∧ decompT d.shape n = t ∧ d.flat.getD n false = true := by
  rw [mem_denseTrueCoords]
  constructor
  · rintro ⟨h1, h2, h3, h4⟩
    obtain ⟨i, j, k⟩ := t
    refine ⟨(i * d.shape.2.1 + j) * d.shape.2.2 + k, recon_lt h1 h2 h3,
      decompT_recon h1 h2 h3, h4⟩
  · rintro ⟨n, hn, rfl, hv⟩
    obtain ⟨h1, h2, h3⟩ := decompT_lt hn
    refine ⟨h1, h2, h3, ?_⟩
    simpa only [Dense3.cell, recon_decompT hn] using hv

theorem cell_transpose021 {d : Dense3} {i j k : Nat}
    (hi : i < d.shape.1) (hj : j < d.shape.2.2) (hk : k < d.shape.2.1) :
    (transpose021 d).cell i j k = d.cell i k j :=
  cell_ofFun (s := (d.shape.1, d.shape.2.2, d.shape.2.1)) _ hi hj hk

theorem mem_denseTrueCoords_transpose021 {d : Dense3} {t : Nat × Nat × Nat} :
    t ∈ denseTrueCoords (transpose021 d) ↔ (t.1, t.2.2, t.2.1) ∈ denseTrueCoords d := by
  rw [mem_denseTrueCoords, mem_denseTrueCoords]
  simp only [transpose021_shape]
  constructor
  · rintro ⟨h1, h2, h3, h4⟩
    rw [cell_transpose021 h1 h2 h3] at h4
    exact ⟨h1, h3, h2, h4⟩
  · rintro ⟨h1, h2, h3, h4⟩
    refine ⟨h1, h3, h2, ?_⟩
    rw [cell_transpose021 h1 h3 h2]
    exact h4

/-! ### Run-length codec lemmas -/

theorem replicate_succ_append (ctr : Nat) (s : Bool) (rest : List Bool) :
    List.replicate (ctr + 1) s ++ rest = List.replicate ctr s ++ s :: rest := by
  rw [List.replicate_succ', List.append_assoc]
  rfl

theorem runsToSeq_rleLoop (l : List Bool) : ∀ (s : Bool) (ctr : Nat),
    runsToSeq (rleLoop s ctr l) = List.replicate ctr s ++ l := by
  induction l with
  | nil =>
    intro s ctr
    by_cases h : 0 < ctr
    · simp [rleLoop, h, runsToSeq]
    · have hc : ctr = 0 := by omega
      simp [rleLoop, h, hc, runsToSeq]
  | cons c rest ih =>
    intro s ctr
    by_cases hc : c = s
    · subst hc
      by_cases h255 : ctr + 1 = 255
      · have hctr : ctr = 254 := by omega
        subst hctr
        simp only [rleLoop, if_true, eq_self_iff_true, if_pos h255, runsToSeq,
          ih c 0, List.replicate_zero, List.nil_append]
        rw [show (255 : Nat) = 254 + 1 from rfl]
        exact replicate_succ_append 254 c rest
      · simp only [rleLoop, if_true, eq_self_iff_true, if_neg h255, ih c (ctr + 1)]
        exact replicate_succ_append ctr c rest
    · simp [rleLoop, hc, runsToSeq, ih c 1]

theorem runsToSeq_length (ps : List (Bool × Nat)) :
    (runsToSeq ps).length = (ps.map Prod.snd).sum := by
  induction ps with
  | nil => simp [runsToSeq]
  | cons p ps ih =>
    obtain ⟨v, c⟩ := p
    simp [runsToSeq, ih]

theorem sum_counts_rleLoop (l : List Bool) (s : Bool) (ctr : Nat) :
    ((rleLoop s ctr l).map Prod.snd).sum = ctr + l.length := by
  rw [← runsToSeq_length, runsToSeq_rleLoop]
  simp

theorem counts_rleLoop_le (l : List Bool) : ∀ (s : Bool) (ctr : Nat),
    ctr ≤ 254 → ∀ p ∈ rleLoop s ctr l, p.2 ≤ 255 := by
  induction l with
  | nil =>
    intro s ctr hctr p hp
    by_cases h : 0 < ctr
    · simp [rleLoop, h] at hp
      subst hp
      simpa using by omega
    · simp [rleLoop, h] at hp
  | cons c rest ih =>
    intro s ctr hctr p hp
    by_cases hc : c = s
    · subst hc
      by_cases h255 : ctr + 1 = 255
      · rw [rleLoop, if_pos rfl, if_pos h255] at hp
        rcases List.mem_cons.mp hp with h | h
        · subst h; omega
        · exact ih c 0 (by omega) p h
      · rw [rleLoop, if_pos rfl, if_neg h255] at hp
        exact ih c (ctr + 1) (by omega) p hp
    · rw [rleLoop, if_neg hc] at hp
      rcases List.mem_cons.mp hp with h | h
      · subst h; simp; omega
      · exact ih c 1 (by omega) p h

theorem bytesToPairs_pairsToBytes (l : List (Bool × Nat)) :
    bytesToPairs (pairsToBytes l) =
      .ok (l.map (fun p => ((if p.1 then 1 else 0 : Nat), p.2))) := by
  induction l with
  | nil => rfl
  | cons p ps ih =>
    obtain ⟨v, c⟩ := p
    simp only [pairsToBytes, bytesToPairs, ih, List.map_cons]

theorem decodeConcatN_map_pairs (l : List (Bool × Nat)) :
    decodeConcatN (l.map (fun p => ((if p.1 then 1 else 0 : Nat), p.2))) =
      runsToSeq l := by
  induction l with
  | nil => rfl
  | cons p ps ih =>
    obtain ⟨v, c⟩ := p
    have hv : (decide ((if v then 1 else 0 : Nat) ≠ 0)) = v := by cases v <;> simp
    simp only [List.map_cons, decodeConcatN, runsToSeq, ih, hv]

theorem decodeConcatN_length (ps : List (Nat × Nat)) :
    (decodeConcatN ps).length = sumCountsN ps := by
  induction ps with
  | nil => simp [decodeConcatN, sumCountsN]
  | cons p ps ih =>
    obtain ⟨v, c⟩ := p
    simp only [decodeConcatN, sumCountsN, List.map_cons, List.sum_cons,
      List.length_append, List.length_replicate]
    simp only [sumCountsN] at ih
    omega

theorem countBytes_pairsToBytes (l : List (Bool × Nat)) :
    countBytes (pairsToBytes l) = l.map Prod.snd := by
  induction l with
  | nil => rfl
  | cons p ps ih =>
    obtain ⟨v, c⟩ := p
    simp only [pairsToBytes, countBytes, ih, List.map_cons]

theorem setRange_length (buf : List Bool) (start cnt : Nat) (v : Bool) :
    (setRange buf start cnt v).length = buf.length := by
  simp only [setRange, List.length_append, List.length_take, List.length_replicate,
    List.length_drop]
  omega

theorem setRange_within (buf : List Bool) (start cnt : Nat) (v : Bool)
    (h : start + cnt ≤ buf.length) :
    setRange buf start cnt v =
      buf.take start ++ List.replicate cnt v ++ buf.drop (start + cnt) := by
  simp only [setRange]
  rw [Nat.min_eq_left (by omega)]

theorem rleFill_eq (ps : List (Nat × Nat)) : ∀ (buf : List Bool) (idx : Nat),
    idx + sumCountsN ps = buf.length →
    rleFill ps buf idx = buf.take idx ++ decodeConcatN ps := by
  induction ps with
  | nil =>
    intro buf idx h
    simp only [sumCountsN, List.map_nil, List.sum_nil, Nat.add_zero] at h
    simp [rleFill, decodeConcatN, List.take_of_length_le (le_of_eq h.symm)]
  | cons p ps ih =>
    intro buf idx h
    obtain ⟨v, c⟩ := p
    have hsum : sumCountsN ((v, c) :: ps) = c + sumCountsN ps := by
      simp [sumCountsN]
    rw [hsum] at h
    have hin : idx + c ≤ buf.length := by omega
    simp only [rleFill]
    rw [ih (setRange buf idx c (decide (v ≠ 0))) (idx + c)
      (by rw [setRange_length]; omega)]
    rw [setRange_within _ _ _ _ hin]
    have htake : (buf.take idx ++ List.replicate c (decide (v ≠ 0)) ++
        buf.drop (idx + c)).take (idx + c) =
        buf.take idx ++ List.replicate c (decide (v ≠ 0)) := by
      rw [List.take_left']
      simp only [List.length_append, List.length_take, List.length_replicate]
      omega
    rw [htake, decodeConcatN, List.append_assoc]

theorem getD_replicate (c : Nat) (v : Bool) (n : Nat) :
    (List.replicate c v).getD n false = if n < c then v else false := by
  by_cases h : n < c
  · rw [List.getD_eq_getElem _ _ (by simpa using h), List.getElem_replicate, if_pos h]
  · rw [List.getD_eq_default _ _ (by simpa using Nat.le_of_not_lt h), if_neg h]

theorem mem_nzLoop (ps : List (Nat × Nat)) : ∀ (index idx : Nat),
    idx ∈ nzLoop ps index ↔
      index ≤ idx ∧ idx - index < sumCountsN ps ∧
        (decodeConcatN ps).getD (idx - index) false = true := by
  induction ps with
  | nil =>
    intro index idx
    simp [nzLoop, sumCountsN, decodeConcatN]
  | cons p ps ih =>
    intro index idx
    obtain ⟨v, c⟩ := p
    have hsum : sumCountsN ((v, c) :: ps) = c + sumCountsN ps := by
      simp [sumCountsN]
    simp only [nzLoop, List.mem_append, hsum, decodeConcatN]
    constructor
    · rintro (h | h)
      · by_cases hv : v ≠ 0
        · rw [if_pos hv] at h
          simp only [List.mem_map, List.mem_range] at h
          obtain ⟨t, ht, rfl⟩ := h
          refine ⟨by omega, by omega, ?_⟩
          rw [List.getD_append _ _ _ _ (by simp; omega), getD_replicate]
          have hidx : index + t - index = t := by omega
          rw [hidx, if_pos ht]
          simp [hv]
        · rw [if_neg hv] at h
          simp at h
      · rw [ih (index + c) idx] at h
        obtain ⟨h1, h2, h3⟩ := h
        refine ⟨by omega, by omega, ?_⟩
        rw [List.getD_append_right _ _ _ _ (by simp; omega)]
        simpa [show idx - index - c = idx - (index + c) by omega] using h3
    · rintro ⟨h1, h2, h3⟩
      by_cases hin : idx - index < c
      · left
        rw [List.getD_append _ _ _ _ (by simp; omega), getD_replicate,
          if_pos hin] at h3
        have hv : v ≠ 0 := by
          intro hv0
          rw [hv0] at h3
          simp at h3
        rw [if_pos hv]
        simp only [List.mem_map, List.mem_range]
        exact ⟨idx - index, hin, by omega⟩
      · right
        rw [ih (index + c) idx]
        rw [List.getD_append_right _ _ _ _ (by simp; omega)] at h3
        refine ⟨by omega, by omega, ?_⟩
        simpa [show idx - index - c = idx - (index + c) by omega] using h3

/-! ### Well-formedness bookkeeping -/

theorem wellFormed_dense {m : Voxels} {d : Dense3} (hd : m.data = .dense d)
    (hw : wellFormed m = true) :
    d.flat.length = prodT d.shape ∧ d.shape = expectedShape m.axis_order m.dims := by
  unfold wellFormed at hw
  rw [hd] at hw
  simpa using hw

theorem prodT_expectedShape (ax : AxisOrder) (dims : Nat × Nat × Nat) :
    prodT (expectedShape ax dims) = prodT dims := by
  cases ax with
  | xzy => rfl
  | xyz =>
    simp only [expectedShape, prodT]
    ring

theorem flatFor_length {m : Voxels} {d : Dense3} (hd : m.data = .dense d)
    (hw : wellFormed m = true) :
    (flatFor m.axis_order d).length = prodT m.dims := by
  obtain ⟨hlen, hshape⟩ := wellFormed_dense hd hw
  cases hax : m.axis_order with
  | xzy =>
    rw [hax] at hshape
    simp only [flatFor, hlen, hshape, expectedShape]
  | xyz =>
    rw [hax] at hshape
    simp only [flatFor, transpose021, ofFun_flat_length, hshape, expectedShape,
      prodT]

theorem bytesToPairs_odd : ∀ l : List Nat, l.length % 2 = 1 →
    bytesToPairs l = .error .indexOutOfRange
  | [], h => by simp at h
  | [_], _ => rfl
  | v :: c :: rest, h => by
    have hr : rest.length % 2 = 1 := by
      simp only [List.length_cons] at h
      omega
    simp only [bytesToPairs, bytesToPairs_odd rest hr]

deriving instance DecidableEq for Except

/-! ### Claim theorems -/

/-- C8: calling `write` on a model whose data is in the sparse
(2-dimensional) representation fails with the unsupported-operation error
(`ValueError('Sparse model write not yet implemented.')`), and because the
check precedes every `fp.write` call, the error result carries no output
bytes at all — the data is never silently dropped and no partial stream is
produced. -/
theorem c8_sparse_write_rejected (m : Voxels) (cs : List (Nat × Nat × Nat))
    (h : m.data = .sparse cs) :
    writeModel m = .error .unsupportedOperation := by
  unfold writeModel
  rw [h]

theorem c8_sparse_write_rejected_witness :
    (Voxels.mk (.sparse [(0, 0, 0), (1, 2, 3)]) (4, 4, 4) (0, 0, 0) 1 .xyz).data =
        .sparse [(0, 0, 0), (1, 2, 3)] ∧
      writeModel (Voxels.mk (.sparse [(0, 0, 0), (1, 2, 3)]) (4, 4, 4) (0, 0, 0) 1 .xyz) =
        .error .unsupportedOperation :=
  ⟨rfl, c8_sparse_write_rejected _ [(0, 0, 0), (1, 2, 3)] rfl⟩

/-- C9: the claim says `clone` returns a deep copy with equal data, dims,
translate, scale and axis_order.  The code cannot: `clone` invokes
`Voxels(data, dims, translate, scale)` with four arguments while
`Voxels.__init__` requires five (`axis_order` is missing), so every call to
`clone` raises `TypeError` instead of returning a copy — the claim matches
the evident intent (and the spec's description of `clone` as a deep copy)
and the code is the slip.  This theorem evaluates the embedded `clone` on a
concrete model and on all models. -/
theorem c9_clone_raises_typeerror :
    clone (Voxels.mk (.dense ⟨(1, 1, 1), [true]⟩) (1, 1, 1) (0, 0, 0) 1 .xyz) =
        .error .typeError ∧
      ∀ m : Voxels, clone m = .error .typeError :=
  ⟨rfl, fun _ => rfl⟩

/-- C10: on a byte stream whose post-header payload has an odd number of
bytes, both `read` and `read_coords` fail with the out-of-range index error
(the pair loop reads `raw_data[i+1]` unguarded under `i < len(raw_data)`),
rather than returning a model or a format error. -/
theorem c10_odd_payload_index_error (f : BinvoxFile) (fix : Bool)
    (h : f.payload.length % 2 = 1) :
    readModel f fix = .error .indexOutOfRange ∧
      readCoordsModel f fix = .error .indexOutOfRange := by
  have hb := bytesToPairs_odd f.payload h
  constructor
  · unfold readModel
    rw [hb]
  · unfold readCoordsModel
    rw [hb]

theorem c10_odd_payload_index_error_witness :
    ((BinvoxFile.mk (2, 2, 2) (0, 0, 0) 1 [1, 8, 0]).payload.length % 2 = 1) ∧
      (readModel (BinvoxFile.mk (2, 2, 2) (0, 0, 0) 1 [1, 8, 0]) true =
          .error .indexOutOfRange ∧
        readCoordsModel (BinvoxFile.mk (2, 2, 2) (0, 0, 0) 1 [1, 8, 0]) true =
          .error .indexOutOfRange) :=
  ⟨by decide, c10_odd_payload_index_error _ true (by decide)⟩

/-- C5 counterexample: the claim says `write` on a grid with dims product 0
emits the header followed by an empty payload "without failing".  On the
concrete well-formed empty model with dims `(0,1,1)` the embedded `write`
instead fails: `state = voxels_flat[0]` indexes an empty array and raises
`IndexError`. -/
theorem c5_empty_write_counterexample :
    prodT (0, 1, 1) = 0 ∧
      wellFormed (Voxels.mk (.dense ⟨(0, 1, 1), []⟩) (0, 1, 1) (0, 0, 0) 1 .xzy) = true ∧
      writeModel (Voxels.mk (.dense ⟨(0, 1, 1), []⟩) (0, 1, 1) (0, 0, 0) 1 .xzy) =
        .error .indexOutOfRange :=
  ⟨rfl, by decide, rfl⟩

/-- C5 (amended): the run-length pair loop itself produces no pairs for an
empty occupancy sequence, but `write` never reaches it: it reads
`voxels_flat[0]` unconditionally, so on any well-formed dense model whose
dims product is 0 `write` raises an out-of-range index error (after the
header lines) instead of completing with an empty payload. -/
theorem c5_empty_write_amended :
    (∀ s : Bool, rleLoop s 0 [] = []) ∧
      ∀ (m : Voxels) (d : Dense3), m.data = .dense d → wellFormed m = true →
        prodT m.dims = 0 → writeModel m = .error .indexOutOfRange := by
  refine ⟨fun s => rfl, fun m d hd hw h0 => ?_⟩
  have hlen : (flatFor m.axis_order d).length = 0 := by
    rw [flatFor_length hd hw, h0]
  have hnil : flatFor m.axis_order d = [] := List.length_eq_zero.mp hlen
  unfold writeModel
  rw [hd]
  simp only [hnil]

theorem c5_empty_write_amended_witness :
    ((Voxels.mk (.dense ⟨(3, 2, 0), []⟩) (3, 0, 2) (0, 0, 0) 1 .xyz).data =
        .dense ⟨(3, 2, 0), []⟩) ∧
      wellFormed (Voxels.mk (.dense ⟨(3, 2, 0), []⟩) (3, 0, 2) (0, 0, 0) 1 .xyz) = true ∧
      prodT (3, 0, 2) = 0 ∧
      writeModel (Voxels.mk (.dense ⟨(3, 2, 0), []⟩) (3, 0, 2) (0, 0, 0) 1 .xyz) =
        .error .indexOutOfRange :=
  ⟨rfl, by decide, rfl,
    c5_empty_write_amended.2 _ ⟨(3, 2, 0), []⟩ rfl (by decide) rfl⟩

theorem writeModel_ok_payload {m : Voxels} {f : BinvoxFile}
    (hok : writeModel m = Except.ok f) :
    ∃ (d : Dense3) (c : Bool) (rest : List Bool),
      m.data = .dense d ∧ flatFor m.axis_order d = c :: rest ∧
        f = ⟨m.dims, m.translate, m.scale, pairsToBytes (rleLoop c 0 (c :: rest))⟩ := by
  unfold writeModel at hok
  split at hok
  · exact absurd hok (by simp)
  next d heq =>
    split at hok
    · exact absurd hok (by simp)
    next c rest hflat =>
      refine ⟨d, c, rest, heq, hflat, ?_⟩
      cases hok
      rfl

set_option maxRecDepth 4000 in
/-- C2 counterexample: the claim says every count byte of an encoded payload
lies in `[1, 255]`.  Encoding the well-formed 256-cell model whose flattened
data is 255 `false` cells followed by one `true` cell flushes `(0, 255)` at
the counter limit and then, on the state switch, flushes the pair `(0, 0)` —
a count byte of 0, contradicting the lower bound (the sum of the counts,
255 + 0 + 1 = 256, still equals the dims product). -/
theorem c2_zero_count_counterexample :
    wellFormed (Voxels.mk (.dense ⟨(1, 1, 256), List.replicate 255 false ++ [true]⟩)
        (1, 1, 256) (0, 0, 0) 1 .xzy) = true ∧
      writeModel (Voxels.mk (.dense ⟨(1, 1, 256), List.replicate 255 false ++ [true]⟩)
          (1, 1, 256) (0, 0, 0) 1 .xzy) =
        .ok ⟨(1, 1, 256), (0, 0, 0), 1, [0, 255, 0, 0, 1, 1]⟩ ∧
      0 ∈ countBytes [0, 255, 0, 0, 1, 1] ∧ ¬(1 ≤ (0 : Nat)) := by
  refine ⟨by decide, by decide, by decide, by decide⟩

/-- C2 (amended): for every well-formed dense model accepted by `write`,
every count byte of the emitted payload is at most 255 (a count byte of 0 can
occur, immediately after a flush at the 255 limit), and the sum of all count
bytes equals the dims product `dx*dy*dz`. -/
theorem c2_count_bytes_amended (m : Voxels) (f : BinvoxFile)
    (hw : wellFormed m = true) (hok : writeModel m = Except.ok f) :
    (∀ x ∈ countBytes f.payload, x ≤ 255) ∧
      (countBytes f.payload).sum = prodT m.dims := by
  obtain ⟨d, c, rest, hd, hflat, hf⟩ := writeModel_ok_payload hok
  subst hf
  simp only [countBytes_pairsToBytes]
  constructor
  · intro x hx
    simp only [List.mem_map] at hx
    obtain ⟨p, hp, rfl⟩ := hx
    exact counts_rleLoop_le (c :: rest) c 0 (by omega) p hp
  · rw [sum_counts_rleLoop]
    have hlen := flatFor_length hd hw
    rw [hflat] at hlen
    simpa using hlen

theorem c2_count_bytes_amended_witness :
    wellFormed (Voxels.mk (.dense ⟨(1, 1, 2), [true, false]⟩) (1, 1, 2)
        (0, 0, 0) 1 .xzy) = true ∧
      writeModel (Voxels.mk (.dense ⟨(1, 1, 2), [true, false]⟩) (1, 1, 2)
          (0, 0, 0) 1 .xzy) = Except.ok ⟨(1, 1, 2), (0, 0, 0), 1, [1, 1, 0, 1]⟩ ∧
      ((∀ x ∈ countBytes (BinvoxFile.mk (1, 1, 2) (0, 0, 0) 1 [1, 1, 0, 1]).payload,
          x ≤ 255) ∧
        (countBytes (BinvoxFile.mk (1, 1, 2) (0, 0, 0) 1 [1, 1, 0, 1]).payload).sum =
          prodT (1, 1, 2)) :=
  ⟨by decide, by decide,
    c2_count_bytes_amended
      (Voxels.mk (.dense ⟨(1, 1, 2), [true, false]⟩) (1, 1, 2) (0, 0, 0) 1 .xzy)
      (BinvoxFile.mk (1, 1, 2) (0, 0, 0) 1 [1, 1, 0, 1]) (by decide) (by decide)⟩

theorem clipKeep_iff (d : Int) (p : Rat × Rat × Rat) :
    clipKeep d p = true ↔
      (0 ≤ p.1 ∧ p.1 < (d : Rat) ∧ 0 ≤ p.2.1 ∧ p.2.1 < (d : Rat) ∧
        0 ≤ p.2.2 ∧ p.2.2 < (d : Rat)) := by
  simp only [clipKeep, Bool.not_eq_true', Bool.or_eq_false_iff,
    decide_eq_false_iff_not, not_lt, not_le]
  constructor
  · rintro ⟨⟨⟨⟨⟨h1, h2⟩, h3⟩, h4⟩, h5⟩, h6⟩
    exact ⟨h1, h2, h3, h4, h5, h6⟩
  · rintro ⟨h1, h2, h3, h4, h5, h6⟩
    exact ⟨⟨⟨⟨⟨h1, h2⟩, h3⟩, h4⟩, h5⟩, h6⟩

/-- C7: with a positive `clip_dim`, `transform_voxels_coords` returns exactly
the columns of the unclipped result (same transform, same truncation flag)
that pass the per-column bounds test, a column being kept precisely when all
three coordinates lie in `[0, clip_dim)`; in particular with `clip_dim = 10`
and the identity transform the column `(10, 5, 5)` is discarded while
`(9, 5, 5)` is retained. -/
theorem c7_clip_filters :
    (∀ (ijk : List (Rat × Rat × Rat)) (T : Mat4) (trunc : Bool) (d : Int),
      0 < d →
        transform_voxels_coords ijk T trunc (some d) =
          (transform_voxels_coords ijk T trunc none).filter (clipKeep d) ∧
        ∀ p : Rat × Rat × Rat, clipKeep d p = true ↔
          (0 ≤ p.1 ∧ p.1 < (d : Rat) ∧ 0 ≤ p.2.1 ∧ p.2.1 < (d : Rat) ∧
            0 ≤ p.2.2 ∧ p.2.2 < (d : Rat))) ∧
      transform_voxels_coords [((10 : Rat), 5, 5), ((9 : Rat), 5, 5)] idMat4
          false (some 10) = [((9 : Rat), 5, 5)] := by
  constructor
  · intro ijk T trunc d hd
    exact ⟨by simp only [transform_voxels_coords, if_pos hd], clipKeep_iff d⟩
  · have h1 : applyT idMat4 ((10 : Rat), 5, 5) = (10, 5, 5) := by
      norm_num [applyT, dot4, idMat4]
    have h2 : applyT idMat4 ((9 : Rat), 5, 5) = (9, 5, 5) := by
      norm_num [applyT, dot4, idMat4]
    have k1 : clipKeep 10 ((10 : Rat), 5, 5) = false := by
      refine Bool.eq_false_iff.mpr (fun hk => ?_)
      have := (clipKeep_iff 10 ((10 : Rat), 5, 5)).mp hk
      norm_num at this
    have k2 : clipKeep 10 ((9 : Rat), 5, 5) = true :=
      (clipKeep_iff 10 ((9 : Rat), 5, 5)).mpr (by norm_num)
    simp only [transform_voxels_coords, List.map_cons, List.map_nil, h1, h2,
      Bool.false_eq_true, if_false, if_pos (show (0 : Int) < 10 by norm_num),
      List.filter_cons, k1, k2, List.filter_nil, if_true]

theorem c7_clip_filters_witness :
    (0 < (10 : Int)) ∧
      (transform_voxels_coords [((10 : Rat), 5, 5), ((9 : Rat), 5, 5)] idMat4
          false (some 10) =
        (transform_voxels_coords [((10 : Rat), 5, 5), ((9 : Rat), 5, 5)] idMat4
            false none).filter (clipKeep 10) ∧
        ∀ p : Rat × Rat × Rat, clipKeep 10 p = true ↔
          (0 ≤ p.1 ∧ p.1 < (10 : Rat) ∧ 0 ≤ p.2.1 ∧ p.2.1 < (10 : Rat) ∧
            0 ≤ p.2.2 ∧ p.2.2 < (10 : Rat))) :=
  ⟨by decide, c7_clip_filters.1 _ idMat4 false 10 (by decide)⟩

/-- C6: for a 3-dimensional boolean array `D` and matching dims,
`sparse_to_dense(dense_to_sparse(D), dims)` reproduces `D` exactly; the
intermediate coordinate list may be given in any order (any list with the
same columns as `dense_to_sparse(D)` works). -/
theorem c6_dense_sparse_roundtrip (D : Dense3)
    (hD : D.flat.length = prodT D.shape) (l : List (Int × Int × Int))
    (h1 : ∀ t ∈ l, t ∈ dense_to_sparse D)
    (h2 : ∀ t ∈ dense_to_sparse D, t ∈ l) :
    sparse_to_dense l D.shape = D := by
  have hmem : ∀ i j k : Nat, i < D.shape.1 → j < D.shape.2.1 → k < D.shape.2.2 →
      (decide (((i : Int), (j : Int), (k : Int)) ∈ l)) = D.cell i j k := by
    intro i j k hi hj hk
    have hiff : ((i : Int), (j : Int), (k : Int)) ∈ l ↔ D.cell i j k = true := by
      constructor
      · intro hl
        have hds := h1 _ hl
        simp only [dense_to_sparse, List.mem_map] at hds
        obtain ⟨⟨a, b, c⟩, ht, heq⟩ := hds
        simp only [Prod.mk.injEq] at heq
        obtain ⟨e1, e2, e3⟩ := heq
        have ea : a = i := by exact_mod_cast e1
        have eb : b = j := by exact_mod_cast e2
        have ec : c = k := by exact_mod_cast e3
        subst ea; subst eb; subst ec
        exact (mem_denseTrueCoords.mp ht).2.2.2
      · intro hcell
        refine h2 _ ?_
        simp only [dense_to_sparse, List.mem_map]
        exact ⟨(i, j, k), mem_denseTrueCoords.mpr ⟨hi, hj, hk, hcell⟩, rfl⟩
    cases hcell : D.cell i j k
    · rw [hcell] at hiff
      simp [hiff]
    · rw [hcell] at hiff
      simp [hiff]
  calc sparse_to_dense l D.shape
      = ofFun D.shape (fun i j k => decide (((i : Int), (j : Int), (k : Int)) ∈ l)) := rfl
    _ = ofFun D.shape D.cell := ofFun_congr hmem
    _ = D := ofFun_cell_self D hD

theorem c6_dense_sparse_roundtrip_witness :
    ((Dense3.mk (2, 2, 2)
        [true, false, false, false, false, true, false, false]).flat.length =
      prodT (Dense3.mk (2, 2, 2)
        [true, false, false, false, false, true, false, false]).shape) ∧
      (∀ t ∈ [((1 : Int), (0 : Int), (1 : Int)), ((0 : Int), (0 : Int), (0 : Int))],
        t ∈ dense_to_sparse (Dense3.mk (2, 2, 2)
          [true, false, false, false, false, true, false, false])) ∧
      (∀ t ∈ dense_to_sparse (Dense3.mk (2, 2, 2)
          [true, false, false, false, false, true, false, false]),
        t ∈ [((1 : Int), (0 : Int), (1 : Int)), ((0 : Int), (0 : Int), (0 : Int))]) ∧
      sparse_to_dense
          [((1 : Int), (0 : Int), (1 : Int)), ((0 : Int), (0 : Int), (0 : Int))]
          (2, 2, 2) =
        Dense3.mk (2, 2, 2) [true, false, false, false, false, true, false, false] :=
  ⟨by decide, by decide, by decide,
    c6_dense_sparse_roundtrip
      (Dense3.mk (2, 2, 2) [true, false, false, false, false, true, false, false])
      (by decide)
      [((1 : Int), (0 : Int), (1 : Int)), ((0 : Int), (0 : Int), (0 : Int))]
      (by decide) (by decide)⟩

theorem readModel_eq_ok {f : BinvoxFile} {ps : List (Nat × Nat)} (fix : Bool)
    (hps : bytesToPairs f.payload = .ok ps) :
    readModel f fix = .ok ⟨.dense (if fix then
        transpose021 ⟨f.dims, rleFill ps (List.replicate (prodT f.dims) false) 0⟩
      else ⟨f.dims, rleFill ps (List.replicate (prodT f.dims) false) 0⟩),
      f.dims, f.translate, f.scale, if fix then .xyz else .xzy⟩ := by
  unfold readModel
  rw [hps]

/-- C3 counterexample: the claim says the dense decode path reshapes to the
native axis order `(dx, dz, dy)` and, with `fix_coords`, returns an array of
shape `(dx, dy, dz)`.  On the well-formed stream with header dims `(1, 2, 3)`
and payload `[1, 6]` the embedded `read` instead reshapes directly to the
header dims and then transposes, returning an array of shape `(1, 3, 2)`,
which differs from the claimed `(1, 2, 3)`. -/
theorem c3_reshape_counterexample :
    bytesToPairs [1, 6] = .ok [(1, 6)] ∧
      sumCountsN [(1, 6)] = prodT (1, 2, 3) ∧
      (denseResult (BinvoxFile.mk (1, 2, 3) (0, 0, 0) 1 [1, 6]) true).shape =
        (1, 3, 2) ∧
      ¬((1, 3, 2) = ((1 : Nat), (2 : Nat), (3 : Nat))) := by
  refine ⟨rfl, by decide, by decide, by decide⟩

/-- C3 (amended): for every payload that scans into pairs, the dense decode
path reshapes the linear occupancy sequence into a 3-D array whose shape is
the header dims `(dx, dy, dz)` taken as written (not `(dx, dz, dy)`), and
when conventional order is requested it transposes axes 1 and 2 of that
array, so the returned dense array has shape `(dx, dz, dy)`; and whenever
the payload's counts sum to the dims product — so that the runs fully
overwrite the `np.empty` buffer and the decoded cell values are determined
by the stream — the two decode results are related exactly by the axis-1/2
transpose. -/
theorem c3_reshape_amended (f : BinvoxFile) (ps : List (Nat × Nat))
    (hps : bytesToPairs f.payload = .ok ps) :
    (denseResult f false).shape = f.dims ∧
      (denseResult f true).shape = (f.dims.1, f.dims.2.2, f.dims.2.1) ∧
      (sumCountsN ps = prodT f.dims →
        denseResult f true = transpose021 (denseResult f false)) := by
  have h0 := readModel_eq_ok (f := f) false hps
  have h1 := readModel_eq_ok (f := f) true hps
  unfold denseResult
  rw [h0, h1]
  exact ⟨rfl, rfl, fun _ => rfl⟩

theorem c3_reshape_amended_witness :
    bytesToPairs (BinvoxFile.mk (2, 3, 4) (0, 0, 0) 1 [1, 20, 0, 4]).payload =
        .ok [(1, 20), (0, 4)] ∧
      sumCountsN [(1, 20), (0, 4)] = prodT (2, 3, 4) ∧
      ((denseResult (BinvoxFile.mk (2, 3, 4) (0, 0, 0) 1 [1, 20, 0, 4]) false).shape =
          (2, 3, 4) ∧
        (denseResult (BinvoxFile.mk (2, 3, 4) (0, 0, 0) 1 [1, 20, 0, 4]) true).shape =
          (2, 4, 3) ∧
        denseResult (BinvoxFile.mk (2, 3, 4) (0, 0, 0) 1 [1, 20, 0, 4]) true =
          transpose021
            (denseResult (BinvoxFile.mk (2, 3, 4) (0, 0, 0) 1 [1, 20, 0, 4]) false)) :=
  ⟨rfl, by decide,
    (c3_reshape_amended (BinvoxFile.mk (2, 3, 4) (0, 0, 0) 1 [1, 20, 0, 4])
      [(1, 20), (0, 4)] rfl).1,
    (c3_reshape_amended (BinvoxFile.mk (2, 3, 4) (0, 0, 0) 1 [1, 20, 0, 4])
      [(1, 20), (0, 4)] rfl).2.1,
    (c3_reshape_amended (BinvoxFile.mk (2, 3, 4) (0, 0, 0) 1 [1, 20, 0, 4])
      [(1, 20), (0, 4)] rfl).2.2 (by decide)⟩

/-- C1: for every well-formed dense model with positive dims (data buffer
matching its shape, shape matching its dims as the read path lays them out
for its tag), and for both axis-order tags, writing the model and reading
the resulting stream back with the matching `fix_coords` flag returns the
identical model: same dims, same translate, same scale, same tag, and a
dense array equal element for element. -/
theorem c1_write_read_roundtrip (m : Voxels) (hw : wellFormed m = true)
    (hpos : 0 < prodT m.dims) :
    (writeModel m).bind (fun f => readModel f (fixFor m.axis_order)) =
      Except.ok m := by
  cases hdata : m.data with
  | sparse cs => simp [wellFormed, hdata] at hw
  | dense d =>
    obtain ⟨hlen, hshape⟩ := wellFormed_dense hdata hw
    have hflatlen : (flatFor m.axis_order d).length = prodT m.dims :=
      flatFor_length hdata hw
    cases hflat : flatFor m.axis_order d with
    | nil =>
      rw [hflat] at hflatlen
      simp at hflatlen
      omega
    | cons c rest =>
      have hwrite : writeModel m = .ok ⟨m.dims, m.translate, m.scale,
          pairsToBytes (rleLoop c 0 (c :: rest))⟩ := by
        unfold writeModel
        rw [hdata]
        simp only [hflat]
      have hbytes := bytesToPairs_pairsToBytes (rleLoop c 0 (c :: rest))
      have hsum : sumCountsN ((rleLoop c 0 (c :: rest)).map
          (fun p => ((if p.1 then 1 else 0 : Nat), p.2))) = prodT m.dims := by
        unfold sumCountsN
        rw [List.map_map]
        have hcomp : (Prod.snd ∘ fun p : Bool × Nat =>
            ((if p.1 then 1 else 0 : Nat), p.2)) = Prod.snd := by
          funext p
          rfl
        rw [hcomp, sum_counts_rleLoop]
        rw [hflat] at hflatlen
        simpa using hflatlen
      have hfill : rleFill ((rleLoop c 0 (c :: rest)).map
            (fun p => ((if p.1 then 1 else 0 : Nat), p.2)))
          (List.replicate (prodT m.dims) false) 0 = c :: rest := by
        rw [rleFill_eq _ _ 0 (by simp [hsum])]
        rw [decodeConcatN_map_pairs, runsToSeq_rleLoop]
        simp
      have hread := readModel_eq_ok (f := ⟨m.dims, m.translate, m.scale,
          pairsToBytes (rleLoop c 0 (c :: rest))⟩) (fixFor m.axis_order) hbytes
      rw [hwrite]
      show readModel ⟨m.dims, m.translate, m.scale,
          pairsToBytes (rleLoop c 0 (c :: rest))⟩ (fixFor m.axis_order) =
        Except.ok m
      rw [hread]
      simp only [hfill]
      cases m with
      | mk mdata mdims mtr msc max =>
        simp only at hdata hshape hflat hlen ⊢
        subst hdata
        cases max with
        | xzy =>
          simp only [expectedShape] at hshape
          simp only [flatFor] at hflat
          simp only [fixFor, if_false, Bool.false_eq_true]
          cases d with
          | mk dshape dflat =>
            simp only at hshape hflat
            subst hshape
            subst hflat
            rfl
        | xyz =>
          simp only [expectedShape] at hshape
          simp only [flatFor] at hflat
          simp only [fixFor, if_true]
          have htd : transpose021 d = Dense3.mk mdims (c :: rest) := by
            rw [show transpose021 d =
              Dense3.mk (transpose021 d).shape (transpose021 d).flat from rfl]
            rw [hflat]
            rw [transpose021_shape, hshape]
          have hinv := transpose021_involution d hlen
          rw [← htd, hinv]

theorem c1_write_read_roundtrip_witness :
    wellFormed (Voxels.mk
        (.dense ⟨(2, 2, 3), [true, false, true, false, true, true,
          false, false, true, true, false, true]⟩)
        (2, 3, 2) (0, 0, 0) 1 .xyz) = true ∧
      0 < prodT (2, 3, 2) ∧
      (writeModel (Voxels.mk
          (.dense ⟨(2, 2, 3), [true, false, true, false, true, true,
            false, false, true, true, false, true]⟩)
          (2, 3, 2) (0, 0, 0) 1 .xyz)).bind
        (fun f => readModel f (fixFor AxisOrder.xyz)) =
      Except.ok (Voxels.mk
        (.dense ⟨(2, 2, 3), [true, false, true, false, true, true,
          false, false, true, true, false, true]⟩)
        (2, 3, 2) (0, 0, 0) 1 .xyz) :=
  ⟨by decide, by decide,
    c1_write_read_roundtrip
      (Voxels.mk (.dense ⟨(2, 2, 3), [true, false, true, false, true, true,
        false, false, true, true, false, true]⟩) (2, 3, 2) (0, 0, 0) 1 .xyz)
      (by decide) (by decide)⟩

theorem readCoordsModel_eq_ok {f : BinvoxFile} {ps : List (Nat × Nat)}
    (fix : Bool) (hps : bytesToPairs f.payload = .ok ps) :
    readCoordsModel f fix = .ok ⟨.sparse ((nzLoop ps 0).map (fun idx =>
        if fix then
          (idx / (f.dims.1 * f.dims.2.1), idx % (f.dims.1 * f.dims.2.1) % f.dims.1,
            idx % (f.dims.1 * f.dims.2.1) / f.dims.1)
        else
          (idx / (f.dims.1 * f.dims.2.1), idx % (f.dims.1 * f.dims.2.1) / f.dims.1,
            idx % (f.dims.1 * f.dims.2.1) % f.dims.1))),
      f.dims, f.translate, f.scale, if fix then .xyz else .xzy⟩ := by
  unfold readCoordsModel
  rw [hps]

/-- C4 counterexample: the claim says the sparse decode coordinates always
coincide, as a set, with the true-cell coordinates of the dense decode.  On
the well-formed stream with header dims `(1, 2, 3)` (counts sum to the dims
product) and payload `[0,1, 1,1, 0,4]`, sparse decode with `fix_coords`
returns the single coordinate `(0, 0, 1)` while the dense decode's single
true cell is at `(0, 1, 0)`: the sparse index arithmetic divides by `dx*dy`
while the dense reshape strides by `dy*dz`, and for `dx ≠ dz` they
disagree. -/
theorem c4_sparse_dense_counterexample :
    bytesToPairs [0, 1, 1, 1, 0, 4] = .ok [(0, 1), (1, 1), (0, 4)] ∧
      sumCountsN [(0, 1), (1, 1), (0, 4)] = prodT (1, 2, 3) ∧
      sparseResult (BinvoxFile.mk (1, 2, 3) (0, 0, 0) 1 [0, 1, 1, 1, 0, 4]) true =
        [(0, 0, 1)] ∧
      denseTrueCoords
          (denseResult (BinvoxFile.mk (1, 2, 3) (0, 0, 0) 1 [0, 1, 1, 1, 0, 4]) true) =
        [(0, 1, 0)] ∧
      ((0, 0, 1) : Nat × Nat × Nat) ∉
        denseTrueCoords
          (denseResult (BinvoxFile.mk (1, 2, 3) (0, 0, 0) 1 [0, 1, 1, 1, 0, 4]) true) := by
  refine ⟨rfl, by decide, by decide, by decide, by decide⟩

theorem c4_map_decomp (dims : Nat × Nat × Nat) (hdd : dims.1 = dims.2.2)
    (idx : Nat) :
    (idx / (dims.1 * dims.2.1), idx % (dims.1 * dims.2.1) / dims.1,
      idx % (dims.1 * dims.2.1) % dims.1) = decompT dims idx := by
  obtain ⟨d0, d1, d2⟩ := dims
  simp only at hdd
  subst hdd
  simp only [decompT, Prod.mk.injEq]
  refine ⟨by rw [mul_comm], Nat.mod_mul_right_div_self idx d0 d1,
    Nat.mod_mod_of_dvd idx (dvd_mul_right d0 d1)⟩

theorem triple_swap_eq (p q : Nat × Nat × Nat) :
    (p.1, p.2.2, p.2.1) = q ↔ p = (q.1, q.2.2, q.2.1) := by
  obtain ⟨p1, p2, p3⟩ := p
  obtain ⟨q1, q2, q3⟩ := q
  simp only [Prod.mk.injEq]
  tauto

/-- C4 (amended): the sparse decode's index arithmetic divides by `dx*dy`
while the dense decode's reshape strides by `dy*dz`, so the two paths agree
exactly when `dx = dz` (in particular on the format's usual cubic grids):
for every well-formed byte stream (payload scans into pairs whose counts sum
to the dims product) with `dx = dz`, and either value of `fix_coords`, the
coordinate triples returned by `read_coords` are exactly, as a set, the
coordinates of the true cells of the dense array returned by `read`. -/
theorem c4_sparse_dense_amended (f : BinvoxFile) (ps : List (Nat × Nat))
    (fix : Bool) (hps : bytesToPairs f.payload = .ok ps)
    (hsum : sumCountsN ps = prodT f.dims) (hdd : f.dims.1 = f.dims.2.2)
    (t : Nat × Nat × Nat) :
    t ∈ sparseResult f fix ↔ t ∈ denseTrueCoords (denseResult f fix) := by
  have hrc := readCoordsModel_eq_ok fix hps
  have hrm := readModel_eq_ok fix hps
  have hfill : rleFill ps (List.replicate (prodT f.dims) false) 0 =
      decodeConcatN ps := by
    rw [rleFill_eq ps _ 0 (by simp [hsum])]
    simp
  have hnz : ∀ idx : Nat, idx ∈ nzLoop ps 0 ↔
      idx < prodT f.dims ∧ (decodeConcatN ps).getD idx false = true := by
    intro idx
    rw [mem_nzLoop]
    simp [hsum]
  unfold sparseResult denseResult
  cases fix
  case false =>
    simp only [Bool.false_eq_true, if_false] at hrc hrm
    rw [hrc, hrm, hfill]
    show t ∈ (nzLoop ps 0).map _ ↔
      t ∈ denseTrueCoords (⟨f.dims, decodeConcatN ps⟩ : Dense3)
    rw [mem_denseTrueCoords_flat, List.mem_map]
    constructor
    · rintro ⟨idx, hidx, rfl⟩
      rw [hnz] at hidx
      exact ⟨idx, hidx.1, (c4_map_decomp f.dims hdd idx).symm, hidx.2⟩
    · rintro ⟨n, hn, hdec, hval⟩
      refine ⟨n, (hnz n).mpr ⟨hn, hval⟩, ?_⟩
      rw [c4_map_decomp f.dims hdd n, hdec]
  case true =>
    simp only [eq_self_iff_true, if_true] at hrc hrm
    rw [hrc, hrm, hfill]
    show t ∈ (nzLoop ps 0).map _ ↔
      t ∈ denseTrueCoords (transpose021 (⟨f.dims, decodeConcatN ps⟩ : Dense3))
    rw [mem_denseTrueCoords_transpose021, mem_denseTrueCoords_flat, List.mem_map]
    constructor
    · rintro ⟨idx, hidx, rfl⟩
      rw [hnz] at hidx
      refine ⟨idx, hidx.1, ?_, hidx.2⟩
      have h0 := c4_map_decomp f.dims hdd idx
      rw [← h0]
    · rintro ⟨n, hn, hdec, hval⟩
      refine ⟨n, (hnz n).mpr ⟨hn, hval⟩, ?_⟩
      have h0 := c4_map_decomp f.dims hdd n
      have hdec2 : decompT f.dims n = (t.1, t.2.2, t.2.1) := hdec
      have h1 : (n / (f.dims.1 * f.dims.2.1), n % (f.dims.1 * f.dims.2.1) / f.dims.1,
          n % (f.dims.1 * f.dims.2.1) % f.dims.1) = (t.1, t.2.2, t.2.1) := by
        rw [h0, hdec2]
      exact (triple_swap_eq (n / (f.dims.1 * f.dims.2.1),
        n % (f.dims.1 * f.dims.2.1) / f.dims.1,
        n % (f.dims.1 * f.dims.2.1) % f.dims.1) t).mpr h1

theorem c4_sparse_dense_amended_witness :
    bytesToPairs (BinvoxFile.mk (2, 3, 2) (0, 0, 0) 1 [0, 3, 1, 5, 0, 4]).payload =
        .ok [(0, 3), (1, 5), (0, 4)] ∧
      sumCountsN [(0, 3), (1, 5), (0, 4)] = prodT (2, 3, 2) ∧
      (BinvoxFile.mk (2, 3, 2) (0, 0, 0) 1 [0, 3, 1, 5, 0, 4]).dims.1 =
        (BinvoxFile.mk (2, 3, 2) (0, 0, 0) 1 [0, 3, 1, 5, 0, 4]).dims.2.2 ∧
      (((1, 1, 0) : Nat × Nat × Nat) ∈
          sparseResult (BinvoxFile.mk (2, 3, 2) (0, 0, 0) 1 [0, 3, 1, 5, 0, 4]) true ↔
        ((1, 1, 0) : Nat × Nat × Nat) ∈
          denseTrueCoords
            (denseResult (BinvoxFile.mk (2, 3, 2) (0, 0, 0) 1 [0, 3, 1, 5, 0, 4]) true)) :=
  ⟨rfl, by decide, rfl,
    c4_sparse_dense_amended (BinvoxFile.mk (2, 3, 2) (0, 0, 0) 1 [0, 3, 1, 5, 0, 4])
      [(0, 3), (1, 5), (0, 4)] true rfl (by decide) rfl (1, 1, 0)⟩
